import Mathlib

/-!
Verification of the per-symbol OHLCV normalization pipeline of
`src/Zipline/free_data_zipline_bundles.py`.

Python floats are modelled as `Option ℚ`: `none` stands for NaN (and for a
missing/NA cell, which pandas also represents as NaN), `some q` for a finite
float value.  Dates are modelled as natural numbers (ordinal dates); only
their ordering matters to the pipeline.

`safe_float_to_uint32` is embedded from the source (lines 22-24).  The body
of `process_symbol_data` (lines 27-54) consists solely of a docstring, so the
function itself is embedded as the constant `none`; its intended behaviour,
which the claims describe, is modelled from the spec as `normalize` below.
-/

namespace Zipline

/-- A raw per-date price row as received from the data source.  `none` in a
field means the value is NaN/absent. -/
structure RawRow where
  date : Nat
  «open» : Option ℚ
  high : Option ℚ
  low : Option ℚ
  close : Option ℚ
  adj_close : Option ℚ
  volume : Option ℚ
deriving DecidableEq

/-- A price row after cleaning and adjustment: all four prices are finite,
`adj_close` has been dropped, `dividend`/`split` have been synthesized.
`volume` may still be NaN. -/
structure AdjRow where
  «open» : ℚ
  high : ℚ
  low : ℚ
  close : ℚ
  volume : Option ℚ
  dividend : ℚ
  split : ℚ
deriving DecidableEq

/-- One output row: prices and volume are unsigned 32-bit integers
(represented as `Nat` with the bound proved separately), `dividend` and
`split` remain floats. -/
structure NormalizedRow where
  date : Nat
  «open» : Nat
  high : Nat
  low : Nat
  close : Nat
  volume : Nat
  dividend : ℚ
  split : ℚ
deriving DecidableEq

/-- The constant `np.iinfo(np.uint32).max`. -/
def UINT32_MAX : ℚ := 4294967295

/-- Python's two-argument `min(value, m)` with a possibly-NaN first argument:
`min` returns `m` only when `m < value`, and every comparison with NaN is
false, so a NaN first argument is returned unchanged. -/
def pymin (v : Option ℚ) (m : ℚ) : Option ℚ :=
  match v with
  | none => none
  | some q => if m < q then some m else some q

/-- Python's two-argument `max(z, v)` with a possibly-NaN second argument:
`max` returns `v` only when `v > z`, and every comparison with NaN is false,
so a NaN second argument loses and `z` is returned. -/
def pymax (z : ℚ) (v : Option ℚ) : Option ℚ :=
  match v with
  | none => some z
  | some q => if z < q then some q else some z

/-- The cast `np.uint32` applied to a float already clamped into `[0, 2^32-1]`:
C-style truncation toward zero, which on a nonnegative value is the floor.
(The pipeline only ever applies it after the clamp.)  A NaN argument cannot
arise after `max(0, ...)`; that branch is given the value 0. -/
def np_uint32 (v : Option ℚ) : Nat :=
  match v with
  | none => 0
  | some q => Int.toNat ⌊q⌋

/-- Source lines 22-24:
`return np.uint32(max(0, min(value, np.iinfo(np.uint32).max)))`. -/
def safe_float_to_uint32 (value : Option ℚ) : Nat :=
  np_uint32 (pymax 0 (pymin value UINT32_MAX))

/-- Modelled from the spec: the row-validity test of step 1 ("drop rows with
any null/NaN in open/high/low/close/adj_close"); `volume` may be NaN. -/
def isCleanRow (r : RawRow) : Bool :=
  r.«open».isSome && r.high.isSome && r.low.isSome && r.close.isSome &&
    r.adj_close.isSome

/-- Modelled from the spec: step 1, validate & clean. -/
def dropna (rows : List RawRow) : List RawRow := rows.filter isCleanRow

/-- Modelled from the spec: steps 2-3 on one surviving row — rescale the
four prices by `factor = adj_close / close`, drop `adj_close`, synthesize
`dividend = 0.0` and `split = 1.0`.  Returns `none` on a row that step 1
would have dropped. -/
def adjustRow (r : RawRow) : Option (Nat × AdjRow) :=
  match r.«open», r.high, r.low, r.close, r.adj_close with
  | some o, some h, some l, some c, some a =>
      some (r.date,
        { «open» := o * (a / c), high := h * (a / c), low := l * (a / c),
          close := c * (a / c), volume := r.volume, dividend := 0, split := 1 })
  | _, _, _, _, _ => none

/-- Modelled from the spec: steps 2-3 applied to every cleaned row. -/
def adjustAll (rows : List RawRow) : List (Nat × AdjRow) :=
  rows.filterMap adjustRow

/-- Modelled from the spec: the reindexing lookup — find the (unique)
adjusted row carrying a given date. -/
def lookupRow (l : List (Nat × AdjRow)) (d : Nat) : Option AdjRow :=
  match l with
  | [] => none
  | (k, v) :: rest => if d = k then some v else lookupRow rest d

/-- Modelled from the spec: step 4, align to calendar — reindex onto
`canonicalDates`, introducing an all-missing row (`none`) for any canonical
date absent from the adjusted set. -/
def reindex (adj : List (Nat × AdjRow)) (cal : List Nat) :
    List (Nat × Option AdjRow) :=
  cal.map (fun d => (d, lookupRow adj d))

/-- Modelled from the spec: step 5, forward-fill — propagate the most recent
valid row into immediately following missing rows, in date order. -/
def ffill (last : Option AdjRow) :
    List (Nat × Option AdjRow) → List (Nat × Option AdjRow)
  | [] => []
  | (d, v) :: rest =>
      match v with
      | some r => (d, some r) :: ffill (some r) rest
      | none => (d, last) :: ffill last rest

/-- Modelled from the spec: one anomaly patch — walk the table keeping the
previous entry's value; at the anomaly date, if the value is still missing,
copy the prior calendar date's value into it. -/
def copyPrev (prev : Option AdjRow) (l : List (Nat × Option AdjRow))
    (a : Nat) : List (Nat × Option AdjRow) :=
  match l with
  | [] => []
  | (d, v) :: rest =>
      if d = a then (d, if v.isNone then prev else v) :: rest
      else (d, v) :: copyPrev v rest a

/-- Modelled from the spec: step 6, patch each anomaly date in turn. -/
def patchAnomalies (tbl : List (Nat × Option AdjRow)) (anoms : List Nat) :
    List (Nat × Option AdjRow) :=
  anoms.foldl (fun t a => copyPrev none t a) tbl

/-- Modelled from the spec: step 8's rounding to the nearest integer, as a
rational. -/
def roundQ (q : ℚ) : ℚ := ((round q : ℤ) : ℚ)

/-- Modelled from the spec: step 8, coerce one table entry — round the four
prices and clamp them through `safe_float_to_uint32`; fill a missing volume
with 0 and clamp likewise.  An all-missing row coerces with the NaN policy
of `safe_float_to_uint32` (prices 0) and the declared defaults
`dividend = 0.0`, `split = 1.0`. -/
def coerceRow : Nat × Option AdjRow → NormalizedRow
  | (d, none) =>
      { date := d
        «open» := safe_float_to_uint32 none
        high := safe_float_to_uint32 none
        low := safe_float_to_uint32 none
        close := safe_float_to_uint32 none
        volume := safe_float_to_uint32 (some 0)
        dividend := 0
        split := 1 }
  | (d, some r) =>
      { date := d
        «open» := safe_float_to_uint32 (some (roundQ r.«open»))
        high := safe_float_to_uint32 (some (roundQ r.high))
        low := safe_float_to_uint32 (some (roundQ r.low))
        close := safe_float_to_uint32 (some (roundQ r.close))
        volume := safe_float_to_uint32 (some (r.volume.getD 0))
        dividend := r.dividend
        split := r.split }

/-- The error taxonomy of the spec's §7 that applies to `normalize`. -/
inductive NormError where
  | EmptyInputError
deriving DecidableEq

/-- Modelled from the spec: `normalize(rawRows, canonicalDates, anomalyDates)`
— the intended body of `process_symbol_data`, whose implementation is a
docstring-only stub in the source.  Steps 1-8 of §4.1 in order: clean,
reject an input that became empty, adjust, synthesize, reindex,
forward-fill, patch anomalies, sort by date, coerce types. -/
def normalize (raw : List RawRow) (cal : List Nat) (anoms : List Nat) :
    Except NormError (List NormalizedRow) :=
  if (dropna raw).isEmpty then Except.error NormError.EmptyInputError
  else
    Except.ok ((List.insertionSort (fun x y => x.1 ≤ y.1)
      (patchAnomalies (ffill none (reindex (adjustAll (dropna raw)) cal))
        anoms)).map coerceRow)

/-- The function `process_symbol_data` exactly as it stands in the source
(lines 27-54):
its body is a single docstring with no executable statement, so the Python
function returns `None` on every call. -/
def process_symbol_data (df : List RawRow) (trading_days : List Nat)
    (missing_dates : List Nat) : Option (List NormalizedRow) :=
  none

/-! ### Helper lemmas -/

/-- Evaluation of `safe_float_to_uint32` on a finite value: the Python
`max`/`min` chain coincides with the mathematical clamp, and the `uint32`
cast is the floor of the clamped (hence nonnegative) value. -/
lemma safe_some_eq (q : ℚ) :
    safe_float_to_uint32 (some q) = Int.toNat ⌊max 0 (min q UINT32_MAX)⌋ := by
  rcases lt_or_le UINT32_MAX q with h | h
  · have h0 : (0 : ℚ) < UINT32_MAX := by norm_num [UINT32_MAX]
    simp [safe_float_to_uint32, pymin, pymax, np_uint32, h, h0,
      min_eq_right h.le, max_eq_right h0.le]
  · rcases lt_or_le (0 : ℚ) q with h0 | h0
    · simp [safe_float_to_uint32, pymin, pymax, np_uint32, not_lt.mpr h, h0,
        min_eq_left h, max_eq_right h0.le]
    · simp [safe_float_to_uint32, pymin, pymax, np_uint32, not_lt.mpr h,
        not_lt.mpr h0, min_eq_left h, max_eq_left h0]

/-- The clamped conversion never exceeds `UINT32_MAX`. -/
lemma safe_le (v : Option ℚ) : safe_float_to_uint32 v ≤ 4294967295 := by
  cases v with
  | none => decide
  | some q =>
    rw [safe_some_eq]
    have hle : max 0 (min q UINT32_MAX) ≤ (4294967295 : ℚ) := by
      apply max_le
      · norm_num
      · exact le_trans (min_le_right _ _) (by norm_num [UINT32_MAX])
    have h1 : ⌊max 0 (min q UINT32_MAX)⌋ ≤ (4294967295 : ℤ) := by
      calc ⌊max 0 (min q UINT32_MAX)⌋ ≤ ⌊(4294967295 : ℚ)⌋ := Int.floor_le_floor hle
        _ = 4294967295 := by norm_num
    omega

/-- Coercion preserves the date key. -/
lemma coerceRow_date (p : Nat × Option AdjRow) : (coerceRow p).date = p.1 := by
  obtain ⟨d, v⟩ := p
  cases v <;> rfl

/-- Forward-fill preserves the date keys positionally. -/
lemma ffill_map_fst (tbl : List (Nat × Option AdjRow)) :
    ∀ last, (ffill last tbl).map Prod.fst = tbl.map Prod.fst := by
  induction tbl with
  | nil => intro last; rfl
  | cons x rest ih =>
    intro last
    obtain ⟨d, v⟩ := x
    cases v with
    | some r => simp [ffill, ih]
    | none => simp [ffill, ih]

/-- Reindexing produces exactly the canonical dates as keys. -/
lemma reindex_map_fst (adj : List (Nat × AdjRow)) (cal : List Nat) :
    (reindex adj cal).map Prod.fst = cal := by
  rw [reindex, List.map_map]
  show List.map (fun d => d) cal = cal
  exact List.map_id cal

/-- The keys of the forward-filled, reindexed table are the canonical dates. -/
lemma pipeline_keys (raw : List RawRow) (cal : List Nat) :
    (ffill none (reindex (adjustAll (dropna raw)) cal)).map Prod.fst = cal := by
  rw [ffill_map_fst, reindex_map_fst]

/-- After forward-fill the missing values form a prefix: a missing value at
some position forces the preceding position to be missing as well, and a
missing head value forces the carried-in value to be `none`. -/
lemma ffill_chain (tbl : List (Nat × Option AdjRow)) :
    ∀ last,
      List.Chain' (fun p q : Nat × Option AdjRow => q.2 = none → p.2 = none)
        (ffill last tbl) ∧
      (∀ q ∈ (ffill last tbl).head?, q.2 = none → last = none) := by
  induction tbl with
  | nil =>
    intro last
    exact ⟨List.chain'_nil, by intro q hq; simp [ffill] at hq⟩
  | cons x rest ih =>
    intro last
    obtain ⟨d, v⟩ := x
    cases v with
    | some r =>
      refine ⟨?_, ?_⟩
      · show List.Chain' _ ((d, some r) :: ffill (some r) rest)
        rw [List.chain'_cons']
        refine ⟨?_, (ih (some r)).1⟩
        intro q hq hq2
        exact absurd ((ih (some r)).2 q hq hq2) (by simp)
      · intro q hq hq2
        simp [ffill] at hq
        subst hq
        simp at hq2
    | none =>
      refine ⟨?_, ?_⟩
      · show List.Chain' _ ((d, last) :: ffill last rest)
        rw [List.chain'_cons']
        exact ⟨fun q hq hq2 => (ih last).2 q hq hq2, (ih last).1⟩
      · intro q hq hq2
        simp [ffill] at hq
        subst hq
        exact hq2

/-- Patching one anomaly date changes nothing in a table whose missing
values form a prefix. -/
lemma copyPrev_noop (l : List (Nat × Option AdjRow)) (a : Nat) :
    ∀ prev, (∀ q ∈ l.head?, q.2 = none → prev = none) →
      List.Chain' (fun p q : Nat × Option AdjRow => q.2 = none → p.2 = none) l →
      copyPrev prev l a = l := by
  induction l with
  | nil => intro prev _ _; rfl
  | cons x rest ih =>
    intro prev hhead hchain
    obtain ⟨d, v⟩ := x
    rw [List.chain'_cons'] at hchain
    by_cases hd : d = a
    · cases v with
      | none =>
        have hp : prev = none := hhead (d, none) (by simp) rfl
        simp [copyPrev, hd, hp]
      | some r => simp [copyPrev, hd]
    · have hrest : copyPrev v rest a = rest := ih v hchain.1 hchain.2
      simp [copyPrev, hd, hrest]

/-- The whole anomaly-patch pass is the identity on a forward-filled table. -/
lemma patchAnomalies_noop (anoms : List Nat) (tbl : List (Nat × Option AdjRow))
    (hchain : List.Chain' (fun p q : Nat × Option AdjRow => q.2 = none → p.2 = none)
      tbl) :
    patchAnomalies tbl anoms = tbl := by
  induction anoms with
  | nil => rfl
  | cons a as ih =>
    have h1 : copyPrev none tbl a = tbl :=
      copyPrev_noop tbl a none (by intro q _ _; rfl) hchain
    calc patchAnomalies tbl (a :: as)
        = patchAnomalies (copyPrev none tbl a) as := rfl
      _ = patchAnomalies tbl as := by rw [h1]
      _ = tbl := ih

/-- The defensive sort is the identity on a table whose keys are already
ascending. -/
lemma insertionSort_key_noop (tbl : List (Nat × Option AdjRow))
    (h : List.Pairwise (fun x y : Nat × Option AdjRow => x.1 ≤ y.1) tbl) :
    List.insertionSort (fun x y => x.1 ≤ y.1) tbl = tbl :=
  List.Sorted.insertionSort_eq h

/-- On a strictly ascending calendar and a nonempty cleaned input, the whole
pipeline collapses to coercion of the forward-filled reindexed table: the
anomaly patch and the defensive sort are both the identity there. -/
lemma normalize_ok_eq (raw : List RawRow) (cal anoms : List Nat)
    (hcal : List.Chain' (· < ·) cal) (hne : dropna raw ≠ []) :
    normalize raw cal anoms =
      Except.ok ((ffill none (reindex (adjustAll (dropna raw)) cal)).map
        coerceRow) := by
  have hemp : (dropna raw).isEmpty = false := by
    cases h : dropna raw with
    | nil => exact absurd h hne
    | cons y ys => rfl
  have hpair : List.Pairwise (· ≤ ·) cal :=
    (List.chain'_iff_pairwise.mp hcal).imp le_of_lt
  have hkeys : List.Pairwise (fun x y : Nat × Option AdjRow => x.1 ≤ y.1)
      (ffill none (reindex (adjustAll (dropna raw)) cal)) := by
    have h2 := hpair
    rw [← pipeline_keys raw cal] at h2
    exact List.pairwise_map.mp h2
  rw [normalize, hemp]
  simp only [Bool.false_eq_true, if_false]
  rw [patchAnomalies_noop anoms _ ((ffill_chain _) none).1,
    insertionSort_key_noop _ hkeys]

/-- Inversion: any successful run of `normalize` on a strictly ascending
calendar produced the coerced forward-filled table. -/
lemma normalize_ok_inv (raw : List RawRow) (cal anoms : List Nat)
    (out : List NormalizedRow) (hcal : List.Chain' (· < ·) cal)
    (hout : normalize raw cal anoms = Except.ok out) :
    out = (ffill none (reindex (adjustAll (dropna raw)) cal)).map coerceRow := by
  have hne : dropna raw ≠ [] := by
    intro h
    rw [normalize] at hout
    rw [h] at hout
    simp at hout
  rw [normalize_ok_eq raw cal anoms hcal hne] at hout
  exact ((Except.ok.injEq _ _).mp hout).symm

/-- A present (non-missing) entry is untouched by forward-fill. -/
lemma ffill_get_some (tbl : List (Nat × Option AdjRow)) :
    ∀ (last : Option AdjRow) (i k : Nat) (r : AdjRow),
      tbl[i]? = some (k, some r) →
      (ffill last tbl)[i]? = some (k, some r) := by
  induction tbl with
  | nil => intro last i k r h; simp at h
  | cons x rest ih =>
    intro last i k r h
    obtain ⟨d, v⟩ := x
    cases i with
    | zero =>
      simp at h
      obtain ⟨h1, h2⟩ := h
      subst h1
      subst h2
      simp [ffill]
    | succ j =>
      have h' : rest[j]? = some (k, some r) := by simpa using h
      cases v with
      | some r2 => simpa [ffill] using ih (some r2) j k r h'
      | none => simpa [ffill] using ih last j k r h'

/-- The entry after a missing entry: forward-fill gives it exactly the value
that its predecessor carries after forward-fill. -/
lemma ffill_get_none (tbl : List (Nat × Option AdjRow)) :
    ∀ (last : Option AdjRow) (i k : Nat),
      tbl[i + 1]? = some (k, none) →
      ∃ e, (ffill last tbl)[i]? = some e ∧
        (ffill last tbl)[i + 1]? = some (k, e.2) := by
  induction tbl with
  | nil => intro last i k h; simp at h
  | cons x rest ih =>
    intro last i k h
    obtain ⟨d, v⟩ := x
    cases i with
    | zero =>
      have h' : rest[0]? = some (k, none) := by simpa using h
      cases rest with
      | nil => simp at h'
      | cons y rest2 =>
        obtain ⟨dy, vy⟩ := y
        simp at h'
        obtain ⟨h1, h2⟩ := h'
        subst h1
        subst h2
        cases v with
        | some r => exact ⟨(d, some r), by simp [ffill], by simp [ffill]⟩
        | none => exact ⟨(d, last), by simp [ffill], by simp [ffill]⟩
    | succ j =>
      have h' : rest[j + 1]? = some (k, none) := by simpa using h
      cases v with
      | some r =>
        obtain ⟨e, h1, h2⟩ := ih (some r) j k h'
        exact ⟨e, by simpa [ffill] using h1, by simpa [ffill] using h2⟩
      | none =>
        obtain ⟨e, h1, h2⟩ := ih last j k h'
        exact ⟨e, by simpa [ffill] using h1, by simpa [ffill] using h2⟩

/-- A successful lookup returns an entry of the table. -/
lemma lookupRow_mem (l : List (Nat × AdjRow)) (d : Nat) (v : AdjRow) :
    lookupRow l d = some v → (d, v) ∈ l := by
  induction l with
  | nil => intro h; simp [lookupRow] at h
  | cons x rest ih =>
    intro h
    obtain ⟨k, w⟩ := x
    by_cases hd : d = k
    · simp only [lookupRow, if_pos hd] at h
      simp at h
      subst hd
      subst h
      exact List.mem_cons_self _ _
    · simp only [lookupRow, if_neg hd] at h
      exact List.mem_cons_of_mem _ (ih h)

/-- Inversion of a successful adjustment: the key is the row's date, the
volume is passed through, and the synthesized corporate-action columns are
`dividend = 0`, `split = 1`. -/
lemma adjustRow_inv (r : RawRow) (k : Nat) (ar : AdjRow)
    (h : adjustRow r = some (k, ar)) :
    k = r.date ∧ ar.volume = r.volume ∧ ar.dividend = 0 ∧ ar.split = 1 := by
  obtain ⟨dt, o, h2, l2, c2, a2, vol⟩ := r
  cases o <;> cases h2 <;> cases l2 <;> cases c2 <;> cases a2 <;>
    simp [adjustRow] at h ⊢
  obtain ⟨h1, h2⟩ := h
  subst h1
  subst h2
  exact ⟨rfl, rfl, rfl, rfl⟩

/-- A row that passes the cleaning test is adjusted successfully, keeping
its date and volume and synthesizing `dividend = 0`, `split = 1`. -/
lemma adjustRow_of_clean (r : RawRow) (h : isCleanRow r = true) :
    ∃ ar, adjustRow r = some (r.date, ar) ∧ ar.volume = r.volume ∧
      ar.dividend = 0 ∧ ar.split = 1 := by
  simp only [isCleanRow, Bool.and_eq_true, Option.isSome_iff_exists] at h
  obtain ⟨⟨⟨⟨⟨o, ho⟩, ⟨h2, hh2⟩⟩, ⟨l2, hl2⟩⟩, ⟨c2, hc2⟩⟩, ⟨a2, ha2⟩⟩ := h
  refine ⟨{ «open» := o * (a2 / c2), high := h2 * (a2 / c2),
            low := l2 * (a2 / c2), close := c2 * (a2 / c2),
            volume := r.volume, dividend := 0, split := 1 },
          ?_, rfl, rfl, rfl⟩
  simp [adjustRow, ho, hh2, hl2, hc2, ha2]

/-- If no raw row carries a date, the adjusted table has no entry for it. -/
lemma lookupRow_adjustAll_none (raw : List RawRow) (d : Nat)
    (h : ∀ r ∈ raw, r.date ≠ d) :
    lookupRow (adjustAll (dropna raw)) d = none := by
  cases hl : lookupRow (adjustAll (dropna raw)) d with
  | none => rfl
  | some v =>
    exfalso
    have hmem := lookupRow_mem _ _ _ hl
    rw [adjustAll] at hmem
    obtain ⟨r, hr, hadj⟩ := List.mem_filterMap.mp hmem
    have hdate := (adjustRow_inv r d v hadj).1
    exact h r (List.mem_of_mem_filter hr) hdate.symm

/-- A clean raw row with a unique date is found by the reindexing lookup,
with its volume passed through. -/
lemma lookupRow_adjustAll_clean (raw : List RawRow) (r : RawRow)
    (hr : r ∈ raw) (hclean : isCleanRow r = true)
    (huniq : ∀ r2 ∈ raw, r2.date = r.date → r2 = r) :
    ∃ ar, lookupRow (adjustAll (dropna raw)) r.date = some ar ∧
      ar.volume = r.volume ∧ ar.dividend = 0 ∧ ar.split = 1 := by
  induction raw with
  | nil => simp at hr
  | cons x rest ih =>
    by_cases hx : x = r
    · subst hx
      obtain ⟨ar, har, hv, hd, hs⟩ := adjustRow_of_clean x hclean
      have heq : adjustAll (dropna (x :: rest)) =
          (x.date, ar) :: adjustAll (dropna rest) := by
        simp [dropna, adjustAll, List.filter_cons_of_pos, hclean,
          List.filterMap_cons_some, har]
      rw [heq]
      simp only [lookupRow, if_pos rfl]
      exact ⟨ar, rfl, hv, hd, hs⟩
    · have hr' : r ∈ rest := by
        rcases List.mem_cons.mp hr with h | h
        · exact absurd h.symm hx
        · exact h
      have hxdate : x.date ≠ r.date := by
        intro hdd
        exact hx (huniq x (List.mem_cons_self x rest) hdd)
      have huniq' : ∀ r2 ∈ rest, r2.date = r.date → r2 = r :=
        fun r2 h2 hd2 => huniq r2 (List.mem_cons_of_mem _ h2) hd2
      by_cases hcx : isCleanRow x = true
      · obtain ⟨arx, harx, _, _, _⟩ := adjustRow_of_clean x hcx
        have heq : adjustAll (dropna (x :: rest)) =
            (x.date, arx) :: adjustAll (dropna rest) := by
          simp [dropna, adjustAll, List.filter_cons_of_pos, hcx,
            List.filterMap_cons_some, harx]
        rw [heq]
        simp only [lookupRow]
        rw [if_neg (fun hh => hxdate hh.symm)]
        exact ih hr' huniq'
      · have hfx : isCleanRow x = false := Bool.eq_false_iff.mpr hcx
        have heq : dropna (x :: rest) = dropna rest := by
          simp [dropna, List.filter_cons, hfx]
        rw [heq]
        exact ih hr' huniq'

/-- A property of values that holds for the seed and all table values also
holds for all forward-filled values. -/
lemma ffill_values (P : Option AdjRow → Prop) (tbl : List (Nat × Option AdjRow)) :
    ∀ last, P last → (∀ e ∈ tbl, P e.2) → ∀ e ∈ ffill last tbl, P e.2 := by
  induction tbl with
  | nil => intro last _ _ e he; simp [ffill] at he
  | cons x rest ih =>
    intro last hlast htbl e he
    obtain ⟨d, v⟩ := x
    cases v with
    | some r =>
      rw [show ffill last ((d, some r) :: rest) =
        (d, some r) :: ffill (some r) rest from rfl] at he
      rcases List.mem_cons.mp he with h | h
      · subst h
        exact htbl (d, some r) (List.mem_cons_self _ _)
      · exact ih (some r) (htbl (d, some r) (List.mem_cons_self _ _))
          (fun e2 he2 => htbl e2 (List.mem_cons_of_mem _ he2)) e h
    | none =>
      rw [show ffill last ((d, none) :: rest) =
        (d, last) :: ffill last rest from rfl] at he
      rcases List.mem_cons.mp he with h | h
      · subst h
        exact hlast
      · exact ih last hlast
          (fun e2 he2 => htbl e2 (List.mem_cons_of_mem _ he2)) e h

/-- Every present value in the forward-filled table came from adjustment,
hence carries `dividend = 0` and `split = 1`. -/
lemma pipeline_values (raw : List RawRow) (cal : List Nat) :
    ∀ e ∈ ffill none (reindex (adjustAll (dropna raw)) cal),
      ∀ r, e.2 = some r → r.dividend = 0 ∧ r.split = 1 := by
  apply ffill_values (fun v => ∀ r, v = some r → r.dividend = 0 ∧ r.split = 1)
  · intro r h
    simp at h
  · intro e he r hr
    rw [reindex] at he
    obtain ⟨d, _, heq⟩ := List.mem_map.mp he
    subst heq
    simp only at hr
    have hmem := lookupRow_mem _ _ _ hr
    rw [adjustAll] at hmem
    obtain ⟨r0, _, hadj⟩ := List.mem_filterMap.mp hmem
    have hinv := adjustRow_inv r0 d r hadj
    exact ⟨hinv.2.2.1, hinv.2.2.2⟩

/-! ### Claim theorems -/

/-- C2: if `normalize` is called with an empty `rawRows`, or with a
collection that becomes empty after the cleaning step drops every row
(e.g., all fields NaN), it fails with `EmptyInputError` and emits no output
rows. -/
theorem normalize_empty_input (raw : List RawRow) (cal anoms : List Nat)
    (h : raw = [] ∨ dropna raw = []) :
    normalize raw cal anoms = Except.error NormError.EmptyInputError := by
  have h' : dropna raw = [] := by
    rcases h with h | h
    · rw [h]
      rfl
    · exact h
  unfold normalize
  rw [h']
  rfl

theorem normalize_empty_input_witness :
    normalize [⟨0, none, none, none, none, none, none⟩] [0, 1] [] =
      Except.error NormError.EmptyInputError :=
  normalize_empty_input _ _ _ (Or.inr rfl)

/-- C3: every row surviving cleaning is rescaled by
`factor = adj_close / close`, applied uniformly to open, high, low and
close; volume passes through and `dividend = 0`, `split = 1` are
synthesized. -/
theorem adjust_uniform_rescale (r : RawRow) (o h2 l2 c2 a2 : ℚ)
    (ho : r.«open» = some o) (hh : r.high = some h2) (hl : r.low = some l2)
    (hc : r.close = some c2) (ha : r.adj_close = some a2) :
    adjustRow r = some (r.date,
      { «open» := o * (a2 / c2), high := h2 * (a2 / c2),
        low := l2 * (a2 / c2), close := c2 * (a2 / c2),
        volume := r.volume, dividend := 0, split := 1 }) := by
  simp [adjustRow, ho, hh, hl, hc, ha]

theorem adjust_uniform_rescale_witness :
    adjustRow ⟨0, some 110, some 115, some 95, some 100, some 90, none⟩ =
      some (0, { «open» := 99, high := 207 / 2, low := 171 / 2, close := 90,
                 volume := none, dividend := 0, split := 1 }) := by
  rw [adjust_uniform_rescale _ 110 115 95 100 90 rfl rfl rfl rfl rfl]
  norm_num

/-- C8: `normalize` is a pure function of its three arguments — two calls
on identical inputs return identical outputs; the model has no clock,
randomness or I/O dependence. -/
theorem normalize_deterministic (raw1 raw2 : List RawRow)
    (cal1 cal2 anoms1 anoms2 : List Nat)
    (h1 : raw1 = raw2) (h2 : cal1 = cal2) (h3 : anoms1 = anoms2) :
    normalize raw1 cal1 anoms1 = normalize raw2 cal2 anoms2 := by
  rw [h1, h2, h3]

theorem normalize_deterministic_witness :
    normalize [⟨1, some 10, some 11, some 9, some 10, some 10, some 1000⟩]
        [1, 2] [] =
      normalize [⟨1, some 10, some 11, some 9, some 10, some 10, some 1000⟩]
        [1, 2] [] :=
  normalize_deterministic _ _ _ _ _ _ rfl rfl rfl

/-- C9: `process_symbol_data` as written returns `None` on every input —
its body is a docstring with no executable statement, so it never
constructs a normalized series. -/
theorem process_symbol_data_returns_none (df : List RawRow)
    (td md : List Nat) : process_symbol_data df td md = none := rfl

/-- C10: `safe_float_to_uint32` is total and always lands in
`[0, 2^32 - 1]` (the result type `Nat` carries nonnegativity and
integrality): a finite input is clamped by `max 0 (min value UINT32_MAX)`
and floor-cast, and a NaN input falls through the Python comparison chain
to 0. -/
theorem safe_float_to_uint32_total_bounded :
    (∀ v : Option ℚ, safe_float_to_uint32 v ≤ 2 ^ 32 - 1) ∧
    safe_float_to_uint32 none = 0 ∧
    (∀ q : ℚ, safe_float_to_uint32 (some q) =
      Int.toNat ⌊max 0 (min q UINT32_MAX)⌋) := by
  refine ⟨?_, by decide, fun q => safe_some_eq q⟩
  intro v
  have h := safe_le v
  have h2 : (2 : ℕ) ^ 32 - 1 = 4294967295 := by norm_num
  omega

/-- C1: on a strictly ascending (hence duplicate-free) calendar, a
successful `normalize` run returns exactly one row per canonical date: the
output has `cal.length` rows, its date index is exactly `cal` (so the date
set equals the set of canonical dates, with no duplicates and no gaps), and
it is strictly ascending. -/
theorem normalize_density (raw : List RawRow) (cal anoms : List Nat)
    (out : List NormalizedRow)
    (hcal : List.Chain' (· < ·) cal)
    (hout : normalize raw cal anoms = Except.ok out) :
    out.length = cal.length ∧ out.map NormalizedRow.date = cal ∧
    List.Chain' (· < ·) (out.map NormalizedRow.date) := by
  have hshape := normalize_ok_inv raw cal anoms out hcal hout
  have hdates : out.map NormalizedRow.date = cal := by
    rw [hshape, List.map_map]
    have hfun : (NormalizedRow.date ∘ coerceRow) = Prod.fst := by
      funext p
      exact coerceRow_date p
    rw [hfun, pipeline_keys]
  refine ⟨?_, hdates, ?_⟩
  · have hlen := congrArg List.length hdates
    simpa using hlen
  · rw [hdates]
    exact hcal

theorem normalize_density_witness :
    ([⟨1, 10, 11, 9, 10, 1000, 0, 1⟩, ⟨2, 10, 11, 9, 10, 1000, 0, 1⟩] :
        List NormalizedRow).length = ([1, 2] : List Nat).length ∧
    ([⟨1, 10, 11, 9, 10, 1000, 0, 1⟩, ⟨2, 10, 11, 9, 10, 1000, 0, 1⟩] :
        List NormalizedRow).map NormalizedRow.date = [1, 2] ∧
    List.Chain' (· < ·)
      (([⟨1, 10, 11, 9, 10, 1000, 0, 1⟩, ⟨2, 10, 11, 9, 10, 1000, 0, 1⟩] :
        List NormalizedRow).map NormalizedRow.date) :=
  normalize_density
    [⟨1, some 10, some 11, some 9, some 10, some 10, some 1000⟩] [1, 2] [] _
    (by norm_num [List.chain'_cons, List.chain'_singleton])
    (by
      unfold Zipline.normalize
      norm_num [dropna, isCleanRow, adjustAll, List.filterMap, adjustRow,
        reindex, lookupRow, ffill, patchAnomalies, copyPrev,
        List.insertionSort, List.orderedInsert, coerceRow,
        safe_float_to_uint32, pymin, pymax, np_uint32, roundQ, UINT32_MAX,
        List.filter, round_eq]
      decide)

/-- C4: every numeric field of every output row of `normalize` is an
integer in `[0, 2^32 - 1]` — the fields live in `Nat` (integrality and
nonnegativity) and are clamped, not wrapped, to the uint32 maximum. -/
theorem normalize_output_bounded (raw : List RawRow) (cal anoms : List Nat)
    (out : List NormalizedRow)
    (hout : normalize raw cal anoms = Except.ok out) :
    ∀ row ∈ out, row.«open» ≤ 2 ^ 32 - 1 ∧ row.high ≤ 2 ^ 32 - 1 ∧
      row.low ≤ 2 ^ 32 - 1 ∧ row.close ≤ 2 ^ 32 - 1 ∧
      row.volume ≤ 2 ^ 32 - 1 := by
  unfold normalize at hout
  by_cases hemp : (dropna raw).isEmpty
  · rw [if_pos hemp] at hout
    simp at hout
  · rw [if_neg hemp] at hout
    have hout2 := (Except.ok.injEq _ _).mp hout
    intro row hrow
    rw [← hout2] at hrow
    obtain ⟨p, _, hcp⟩ := List.mem_map.mp hrow
    obtain ⟨d, v⟩ := p
    subst hcp
    have hb : (2 : ℕ) ^ 32 - 1 = 4294967295 := by norm_num
    rw [hb]
    cases v with
    | none =>
      exact ⟨safe_le none, safe_le none, safe_le none, safe_le none,
        safe_le (some 0)⟩
    | some r =>
      exact ⟨safe_le (some (roundQ r.«open»)), safe_le (some (roundQ r.high)),
        safe_le (some (roundQ r.low)), safe_le (some (roundQ r.close)),
        safe_le (some (r.volume.getD 0))⟩

theorem normalize_output_bounded_witness :
    (⟨1, 10, 11, 9, 10, 1000, 0, 1⟩ : NormalizedRow).«open» ≤ 2 ^ 32 - 1 ∧
    (⟨1, 10, 11, 9, 10, 1000, 0, 1⟩ : NormalizedRow).high ≤ 2 ^ 32 - 1 ∧
    (⟨1, 10, 11, 9, 10, 1000, 0, 1⟩ : NormalizedRow).low ≤ 2 ^ 32 - 1 ∧
    (⟨1, 10, 11, 9, 10, 1000, 0, 1⟩ : NormalizedRow).close ≤ 2 ^ 32 - 1 ∧
    (⟨1, 10, 11, 9, 10, 1000, 0, 1⟩ : NormalizedRow).volume ≤ 2 ^ 32 - 1 :=
  normalize_output_bounded
    [⟨1, some 10, some 11, some 9, some 10, some 10, some 1000⟩] [1, 2] []
    [⟨1, 10, 11, 9, 10, 1000, 0, 1⟩, ⟨2, 10, 11, 9, 10, 1000, 0, 1⟩]
    (by
      unfold Zipline.normalize
      norm_num [dropna, isCleanRow, adjustAll, List.filterMap, adjustRow,
        reindex, lookupRow, ffill, patchAnomalies, copyPrev,
        List.insertionSort, List.orderedInsert, coerceRow,
        safe_float_to_uint32, pymin, pymax, np_uint32, roundQ, UINT32_MAX,
        List.filter, round_eq]
      decide)
    ⟨1, 10, 11, 9, 10, 1000, 0, 1⟩ (by decide)

/-- C5: a canonical date `d` with no raw row and not in `anomalyDates` is
forward-filled: its output row equals the nearest preceding date's output
row in open/high/low/close/volume, with `dividend = 0` and `split = 1`. -/
theorem normalize_forward_fill (raw : List RawRow) (pre post : List Nat)
    (p d : Nat) (anoms : List Nat) (out : List NormalizedRow)
    (hcal : List.Chain' (· < ·) (pre ++ p :: d :: post))
    (hout : normalize raw (pre ++ p :: d :: post) anoms = Except.ok out)
    (hnoraw : ∀ r ∈ raw, r.date ≠ d)
    (hanom : d ∉ anoms) :
    ∃ rp rd, out[pre.length]? = some rp ∧ out[pre.length + 1]? = some rd ∧
      rd.date = d ∧ rp.date = p ∧
      rd.«open» = rp.«open» ∧ rd.high = rp.high ∧ rd.low = rp.low ∧
      rd.close = rp.close ∧ rd.volume = rp.volume ∧
      rd.dividend = 0 ∧ rd.split = 1 := by
  have hshape := normalize_ok_inv raw _ anoms out hcal hout
  have hcalp : (pre ++ p :: d :: post)[pre.length]? = some p := by
    rw [List.getElem?_append_right (le_refl pre.length)]
    simp
  have hcald : (pre ++ p :: d :: post)[pre.length + 1]? = some d := by
    rw [List.getElem?_append_right (Nat.le_succ_of_le (le_refl pre.length))]
    simp [Nat.add_sub_cancel_left]
  have hlook : lookupRow (adjustAll (dropna raw)) d = none :=
    lookupRow_adjustAll_none raw d hnoraw
  have htbl0 : (reindex (adjustAll (dropna raw))
      (pre ++ p :: d :: post))[pre.length + 1]? = some (d, none) := by
    rw [reindex, List.getElem?_map, hcald]
    simp [hlook]
  obtain ⟨e, he1, he2⟩ := ffill_get_none _ none pre.length d htbl0
  obtain ⟨e1, ev⟩ := e
  have hek : e1 = p := by
    have h1 : ((ffill none (reindex (adjustAll (dropna raw))
        (pre ++ p :: d :: post))).map Prod.fst)[pre.length]? = some e1 := by
      rw [List.getElem?_map, he1]
      rfl
    rw [pipeline_keys, hcalp] at h1
    exact ((Option.some.injEq _ _).mp h1).symm
  subst hek
  have hmem := List.getElem?_mem he2
  have hval := pipeline_values raw (pre ++ e1 :: d :: post) (d, ev) hmem
  have hop : out[pre.length]? = some (coerceRow (e1, ev)) := by
    rw [hshape, List.getElem?_map, he1]
    rfl
  have hod : out[pre.length + 1]? = some (coerceRow (d, ev)) := by
    rw [hshape, List.getElem?_map, he2]
    rfl
  refine ⟨coerceRow (e1, ev), coerceRow (d, ev), hop, hod, ?_⟩
  cases ev with
  | none =>
    exact ⟨rfl, rfl, rfl, rfl, rfl, rfl, rfl, rfl, rfl⟩
  | some r =>
    have hr := hval r rfl
    exact ⟨rfl, rfl, rfl, rfl, rfl, rfl, rfl, hr.1, hr.2⟩

theorem normalize_forward_fill_witness :
    ∃ rp rd,
      ([⟨1, 10, 11, 9, 10, 1000, 0, 1⟩, ⟨2, 10, 11, 9, 10, 1000, 0, 1⟩] :
        List NormalizedRow)[(0 : Nat)]? = some rp ∧
      ([⟨1, 10, 11, 9, 10, 1000, 0, 1⟩, ⟨2, 10, 11, 9, 10, 1000, 0, 1⟩] :
        List NormalizedRow)[(0 : Nat) + 1]? = some rd ∧
      rd.date = 2 ∧ rp.date = 1 ∧
      rd.«open» = rp.«open» ∧ rd.high = rp.high ∧ rd.low = rp.low ∧
      rd.close = rp.close ∧ rd.volume = rp.volume ∧
      rd.dividend = 0 ∧ rd.split = 1 :=
  normalize_forward_fill
    [⟨1, some 10, some 11, some 9, some 10, some 10, some 1000⟩]
    [] [] 1 2 [] _
    (by norm_num [List.chain'_cons, List.chain'_singleton])
    (by
      unfold Zipline.normalize
      norm_num [dropna, isCleanRow, adjustAll, List.filterMap, adjustRow,
        reindex, lookupRow, ffill, patchAnomalies, copyPrev,
        List.insertionSort, List.orderedInsert, coerceRow,
        safe_float_to_uint32, pymin, pymax, np_uint32, roundQ, UINT32_MAX,
        List.filter, round_eq]
      decide)
    (by decide)
    (by decide)

/-- C6: an anomaly date that is still missing after forward-fill receives a
copy of the prior calendar date's full row (all seven data columns); the
patched result stands in the final output regardless of what forward-fill
produced. -/
theorem normalize_anomaly_patch (raw : List RawRow) (pre post : List Nat)
    (p a : Nat) (anoms : List Nat) (out : List NormalizedRow)
    (hcal : List.Chain' (· < ·) (pre ++ p :: a :: post))
    (hanm : a ∈ anoms)
    (hmiss : (ffill none (reindex (adjustAll (dropna raw))
      (pre ++ p :: a :: post)))[pre.length + 1]? = some (a, none))
    (hout : normalize raw (pre ++ p :: a :: post) anoms = Except.ok out) :
    ∃ rp ra, out[pre.length]? = some rp ∧ out[pre.length + 1]? = some ra ∧
      ra.date = a ∧ rp.date = p ∧
      ra.«open» = rp.«open» ∧ ra.high = rp.high ∧ ra.low = rp.low ∧
      ra.close = rp.close ∧ ra.volume = rp.volume ∧
      ra.dividend = rp.dividend ∧ ra.split = rp.split := by
  have hshape := normalize_ok_inv raw _ anoms out hcal hout
  have hcalp : (pre ++ p :: a :: post)[pre.length]? = some p := by
    rw [List.getElem?_append_right (le_refl pre.length)]
    simp
  have hch := ((ffill_chain (reindex (adjustAll (dropna raw))
    (pre ++ p :: a :: post))) none).1
  obtain ⟨hlt1, hget1⟩ := List.getElem?_eq_some.mp hmiss
  have hlt0 : pre.length < (ffill none (reindex (adjustAll (dropna raw))
      (pre ++ p :: a :: post))).length := Nat.lt_of_succ_lt hlt1
  have hlt1' : pre.length < (ffill none (reindex (adjustAll (dropna raw))
      (pre ++ p :: a :: post))).length - 1 := by omega
  have hR := (List.chain'_iff_get.mp hch) pre.length hlt1'
  rw [List.get_eq_getElem, List.get_eq_getElem, hget1] at hR
  have h2 : (ffill none (reindex (adjustAll (dropna raw))
      (pre ++ p :: a :: post)))[pre.length].2 = none := hR rfl
  have hkey : (ffill none (reindex (adjustAll (dropna raw))
      (pre ++ p :: a :: post)))[pre.length].1 = p := by
    have hm : ((ffill none (reindex (adjustAll (dropna raw))
        (pre ++ p :: a :: post))).map Prod.fst)[pre.length]? = some p := by
      rw [pipeline_keys]
      exact hcalp
    rw [List.getElem?_map, List.getElem?_eq_getElem hlt0] at hm
    simpa using hm
  have hpair : ((ffill none (reindex (adjustAll (dropna raw))
      (pre ++ p :: a :: post)))[pre.length].1,
      (ffill none (reindex (adjustAll (dropna raw))
      (pre ++ p :: a :: post)))[pre.length].2) = (p, none) := by
    rw [hkey, h2]
  have heq : (ffill none (reindex (adjustAll (dropna raw))
      (pre ++ p :: a :: post)))[pre.length]? = some (p, none) := by
    rw [List.getElem?_eq_getElem hlt0, ← hpair]
  have hop : out[pre.length]? = some (coerceRow (p, none)) := by
    rw [hshape, List.getElem?_map, heq]
    rfl
  have hoa : out[pre.length + 1]? = some (coerceRow (a, none)) := by
    rw [hshape, List.getElem?_map, hmiss]
    rfl
  exact ⟨coerceRow (p, none), coerceRow (a, none), hop, hoa,
    rfl, rfl, rfl, rfl, rfl, rfl, rfl, rfl, rfl⟩

theorem normalize_anomaly_patch_witness :
    ∃ rp ra,
      ([⟨1, 0, 0, 0, 0, 0, 0, 1⟩, ⟨2, 0, 0, 0, 0, 0, 0, 1⟩,
        ⟨3, 10, 11, 9, 10, 1000, 0, 1⟩] :
        List NormalizedRow)[(0 : Nat)]? = some rp ∧
      ([⟨1, 0, 0, 0, 0, 0, 0, 1⟩, ⟨2, 0, 0, 0, 0, 0, 0, 1⟩,
        ⟨3, 10, 11, 9, 10, 1000, 0, 1⟩] :
        List NormalizedRow)[(0 : Nat) + 1]? = some ra ∧
      ra.date = 2 ∧ rp.date = 1 ∧
      ra.«open» = rp.«open» ∧ ra.high = rp.high ∧ ra.low = rp.low ∧
      ra.close = rp.close ∧ ra.volume = rp.volume ∧
      ra.dividend = rp.dividend ∧ ra.split = rp.split :=
  normalize_anomaly_patch
    [⟨3, some 10, some 11, some 9, some 10, some 10, some 1000⟩]
    [] [3] 1 2 [2] _
    (by norm_num [List.chain'_cons, List.chain'_singleton])
    (by decide)
    (by decide)
    (by
      unfold Zipline.normalize
      norm_num [dropna, isCleanRow, adjustAll, List.filterMap, adjustRow,
        reindex, lookupRow, ffill, patchAnomalies, copyPrev,
        List.insertionSort, List.orderedInsert, coerceRow,
        safe_float_to_uint32, pymin, pymax, np_uint32, roundQ, UINT32_MAX,
        List.filter, round_eq]
      decide)

/-- C7: cleaning drops exactly the rows with a missing value in open, high,
low, close or adj_close — a row whose only missing field is volume is
retained, and (when its date is canonical and unique) its output volume is
0. -/
theorem normalize_clean_volume :
    (∀ (rows : List RawRow) (r : RawRow),
        r ∈ dropna rows ↔ r ∈ rows ∧ r.«open» ≠ none ∧ r.high ≠ none ∧
          r.low ≠ none ∧ r.close ≠ none ∧ r.adj_close ≠ none) ∧
    (∀ (raw : List RawRow) (cal anoms : List Nat) (out : List NormalizedRow)
        (r : RawRow) (i : Nat),
        List.Chain' (· < ·) cal →
        normalize raw cal anoms = Except.ok out →
        r ∈ raw → isCleanRow r = true → r.volume = none →
        (∀ r2 ∈ raw, r2.date = r.date → r2 = r) →
        cal[i]? = some r.date →
        ∃ row, out[i]? = some row ∧ row.date = r.date ∧ row.volume = 0) := by
  constructor
  · intro rows r
    simp [dropna, List.mem_filter, isCleanRow, Bool.and_eq_true,
      Option.isSome_iff_ne_none, and_assoc]
  · intro raw cal anoms out r i hcal hout hr hclean hvol huniq hcali
    have hshape := normalize_ok_inv raw cal anoms out hcal hout
    obtain ⟨ar, hla, hav, _, _⟩ := lookupRow_adjustAll_clean raw r hr hclean huniq
    have htbl0 : (reindex (adjustAll (dropna raw)) cal)[i]? =
        some (r.date, some ar) := by
      rw [reindex, List.getElem?_map, hcali]
      simp [hla]
    have htblF := ffill_get_some _ none i r.date ar htbl0
    refine ⟨coerceRow (r.date, some ar), ?_, rfl, ?_⟩
    · rw [hshape, List.getElem?_map, htblF]
      rfl
    · rw [show (coerceRow (r.date, some ar)).volume =
        safe_float_to_uint32 (some (ar.volume.getD 0)) from rfl]
      rw [hav, hvol]
      decide

theorem normalize_clean_volume_witness :
    ((⟨1, some 10, some 11, some 9, some 10, some 10, none⟩ : RawRow) ∈
      dropna [⟨1, some 10, some 11, some 9, some 10, some 10, none⟩] ↔
      (⟨1, some 10, some 11, some 9, some 10, some 10, none⟩ : RawRow) ∈
        [(⟨1, some 10, some 11, some 9, some 10, some 10, none⟩ : RawRow)] ∧
      (⟨1, some 10, some 11, some 9, some 10, some 10, none⟩ :
        RawRow).«open» ≠ none ∧
      (⟨1, some 10, some 11, some 9, some 10, some 10, none⟩ :
        RawRow).high ≠ none ∧
      (⟨1, some 10, some 11, some 9, some 10, some 10, none⟩ :
        RawRow).low ≠ none ∧
      (⟨1, some 10, some 11, some 9, some 10, some 10, none⟩ :
        RawRow).close ≠ none ∧
      (⟨1, some 10, some 11, some 9, some 10, some 10, none⟩ :
        RawRow).adj_close ≠ none) ∧
    ∃ row, ([⟨1, 10, 11, 9, 10, 0, 0, 1⟩] :
        List NormalizedRow)[(0 : Nat)]? = some row ∧
      row.date = 1 ∧ row.volume = 0 :=
  ⟨normalize_clean_volume.1 _ _,
   normalize_clean_volume.2
    [⟨1, some 10, some 11, some 9, some 10, some 10, none⟩] [1] [] _
    ⟨1, some 10, some 11, some 9, some 10, some 10, none⟩ 0
    (by norm_num [List.chain'_singleton])
    (by
      unfold Zipline.normalize
      norm_num [dropna, isCleanRow, adjustAll, List.filterMap, adjustRow,
        reindex, lookupRow, ffill, patchAnomalies, copyPrev,
        List.insertionSort, List.orderedInsert, coerceRow,
        safe_float_to_uint32, pymin, pymax, np_uint32, roundQ, UINT32_MAX,
        List.filter, round_eq]
      decide)
    (by decide) (by decide) (by decide) (by decide) (by decide)⟩

end Zipline
